import Mathlib

/-!
Shallow embedding of `rl_agents/agents/tree_search/graph_based_stochastic.py`
(the stochastic graph-based planner) and verification of its specification.

The planner builds a shared state-transition graph whose nodes live in a heap
addressed by natural-number identifiers: decision nodes (states) and chance
nodes ((state, action) pairs) are stored in two explicit heaps inside the
planner state, and every operation of the source is translated as a function
threading that state.  Real-valued statistics are modelled by rationals,
observations by their string signatures (`str(observation)` in the source).

External collaborators that are not part of the source file under
verification (the `GraphNode` base class fields, the planner node table,
`kl_upper_bound`, `max_expectation_under_constraint`, `OLOP.allocation`, the
randomized argmax and the runtime-evaluated threshold formulas) are modelled
from the specification, as documented on each definition.
-/

set_option linter.unusedVariables false

/-- Value-bound field selector: the two fields `value_upper` / `value_lower`
that the backup routines of the source read and write by name. -/
inductive BoundField where
  | value_upper
  | value_lower
deriving DecidableEq

/-- Embedding of `GraphDecisionNode` (src lines 14-129) together with the
fields it inherits from the `GraphNode` base class.  The base class
(graph_based.py) is not in src; its fields are modelled from the spec: a node
carries value upper/lower bounds, an action to chance-node children map, a set
of parent decision nodes and an observation signature.  Children map actions
to chance-node heap identifiers; parents are decision-node heap identifiers. -/
structure GraphDecisionNode where
  count : Nat
  cumulative_reward : ℚ
  mu_ucb : ℚ
  mu_lcb : ℚ
  value_upper : ℚ
  value_lower : ℚ
  children : List (Nat × Nat)
  parents : List Nat
  observation : String
deriving DecidableEq

/-- Embedding of `GraphChanceNode` (src lines 132-213): visit count, the three
next-state distributions, the ordered observation-keyed children map (values
are decision-node heap identifiers) and the inherited value bounds. -/
structure GraphChanceNode where
  parent : Nat
  count : Nat
  p_hat : Option (List ℚ)
  p_plus : Option (List ℚ)
  p_minus : Option (List ℚ)
  children : List (String × Nat)
  value_upper : ℚ
  value_lower : ℚ
deriving DecidableEq

/-- Embedding of the `upper_bound` configuration section.  Modelled from the
spec: the source stores the two threshold formulas as python expression
strings evaluated over the runtime variables (horizon, actions, count, time);
following spec section 9 they are embedded as pure functions of those four
variables. -/
structure UpperBound where
  type : String
  threshold : Nat → Nat → Nat → Nat → ℚ
  transition_threshold : Nat → Nat → Nat → Nat → ℚ

/-- Planner configuration.  `horizonSet` models whether the `horizon` key is
present in the configuration dictionary (src line 263 tests membership).
`klUB` and `maxExp` are modelled from the spec: they stand for the external
pure routines `kl_upper_bound` (arguments: empirical sum, count, threshold,
lower flag) and `max_expectation_under_constraint` (arguments: value vector,
reference distribution, threshold) of rl_agents.utils, which are not in src.
`init_value_upper` and `init_value_lower` are modelled from the spec: the
initial value bounds a fresh node receives from the `GraphNode` base class,
which is not in src and whose initial values the spec leaves open. -/
structure PlannerConfig where
  gamma : ℚ
  accuracy : ℚ
  budget : Nat
  horizonSet : Bool
  horizon : Nat
  episodes : Nat
  max_next_states_count : Nat
  upper_bound : UpperBound
  init_value_upper : ℚ
  init_value_lower : ℚ
  klUB : ℚ → Nat → ℚ → Bool → ℚ
  maxExp : List ℚ → List ℚ → ℚ → List ℚ

/-- Embedding of `StochasticGraphBasedPlanner` state: the two node heaps with
their allocation counters, the observation-keyed canonical node table
(`planner.nodes`), the root, the configuration and the environment's action
space size (`env.action_space.n`, an external collaborator). -/
structure StochasticGraphBasedPlanner where
  dnodes : Nat → GraphDecisionNode
  cnodes : Nat → GraphChanceNode
  nextD : Nat
  nextC : Nat
  nodes : List (String × Nat)
  root : Nat
  config : PlannerConfig
  n_actions : Nat

abbrev Planner := StochasticGraphBasedPlanner

/-- Read one of the two value-bound fields of a decision node. -/
def GraphDecisionNode.getF (n : GraphDecisionNode) : BoundField → ℚ
  | .value_upper => n.value_upper
  | .value_lower => n.value_lower

/-- Read one of the two value-bound fields of a chance node. -/
def GraphChanceNode.getF (c : GraphChanceNode) : BoundField → ℚ
  | .value_upper => c.value_upper
  | .value_lower => c.value_lower

/-- Embedding of numpy `amax` on a list of rationals (the source never applies
it to an empty collection). -/
def amax (l : List ℚ) : ℚ := l.foldl max (l.headD 0)

/-- Dot product of two rational vectors (numpy `@`). -/
def dot (a b : List ℚ) : ℚ := (List.zipWith (fun x y => x * y) a b).sum

/-- Update the decision node stored at heap address `did`. -/
def updD (p : Planner) (did : Nat) (f : GraphDecisionNode → GraphDecisionNode) : Planner :=
  { p with dnodes := fun d => if d = did then f (p.dnodes d) else p.dnodes d }

/-- Update the chance node stored at heap address `cid`. -/
def updC (p : Planner) (cid : Nat) (f : GraphChanceNode → GraphChanceNode) : Planner :=
  { p with cnodes := fun c => if c = cid then f (p.cnodes c) else p.cnodes c }

/-- Embedding of `GraphDecisionNode.__init__` (src lines 30-39) together with
the base-class fields: zero statistics, `mu_ucb = 1`, `mu_lcb = 0`, no
children and no parents. -/
def freshD (cfg : PlannerConfig) (obs : String) : GraphDecisionNode :=
  { count := 0, cumulative_reward := 0, mu_ucb := 1, mu_lcb := 0,
    value_upper := cfg.init_value_upper, value_lower := cfg.init_value_lower,
    children := [], parents := [], observation := obs }

/-- Allocate a decision node at the next free heap address. -/
def allocD (p : Planner) (n : GraphDecisionNode) : Nat × Planner :=
  (p.nextD, { p with
    dnodes := fun d => if d = p.nextD then n else p.dnodes d
    nextD := p.nextD + 1 })

/-- Modelled from the spec: the planner's node table maps an observation
signature to its canonical decision node, creating entries lazily on first
visit (`GraphBasedPlanner.get_node` of graph_based.py, not in src). -/
def get_node (p : Planner) (obs : String) : Nat × Planner :=
  match p.nodes.lookup obs with
  | some did => (did, p)
  | none =>
    let r := allocD p (freshD p.config obs)
    (r.1, { r.2 with nodes := r.2.nodes ++ [(obs, r.1)] })

/-- Key under which the i-th placeholder child of a chance node is stored
(src line 147: `"placeholder_{}".format(i)`). -/
def placeholderKey (i : Nat) : String := "placeholder_" ++ toString i

/-- Allocate the placeholder decision nodes of a fresh chance node, one per
index, each with observation `"placeholder"` (src lines 144-149). -/
def mkPlaceholders (p : Planner) : List Nat → List (String × Nat) × Planner
  | [] => ([], p)
  | i :: rest =>
    let r := allocD p (freshD p.config "placeholder")
    let s := mkPlaceholders r.2 rest
    ((placeholderKey i, r.1) :: s.1, s.2)

/-- Embedding of `GraphChanceNode.__init__` (src lines 136-149): a fresh
chance node with `max_next_states_count` placeholder children pre-allocated,
zero count and no distributions. -/
def newChanceNode (p : Planner) (parent : Nat) : Nat × Planner :=
  let r := mkPlaceholders p (List.range p.config.max_next_states_count)
  let c : GraphChanceNode :=
    { parent := parent, count := 0, p_hat := none, p_plus := none, p_minus := none,
      children := r.1, value_upper := p.config.init_value_upper,
      value_lower := p.config.init_value_lower }
  (r.2.nextC, { r.2 with
    cnodes := fun x => if x = r.2.nextC then c else r.2.cnodes x
    nextC := r.2.nextC + 1 })

/-- Embedding of `GraphDecisionNode.get_field` (src lines 117-123): if the
node's observation has a canonical representative in the planner table, read
the field from the representative, else from the node itself. -/
def get_field (p : Planner) (n : GraphDecisionNode) (f : BoundField) : ℚ :=
  match p.nodes.lookup n.observation with
  | some did => (p.dnodes did).getF f
  | none => n.getF f

/-- Embedding of `GraphDecisionNode.compute_reward_ucb` (src lines 67-83).
For the recognized `"kullback-leibler"` scheme the threshold formula is
evaluated on (horizon, actions, count, episodes); a zero threshold collapses
both bounds to the empirical mean, otherwise `kl_upper_bound` is consulted.
For any other scheme the source merely logs an error, which leaves the node
unchanged. -/
def compute_reward_ucb (cfg : PlannerConfig) (nActions : Nat) (n : GraphDecisionNode) :
    GraphDecisionNode :=
  if cfg.upper_bound.type = "kullback-leibler" then
    let threshold := cfg.upper_bound.threshold cfg.horizon nActions n.count cfg.episodes
    if threshold = 0 then
      { n with mu_ucb := n.cumulative_reward / (n.count : ℚ),
               mu_lcb := n.cumulative_reward / (n.count : ℚ) }
    else
      { n with mu_ucb := cfg.klUB n.cumulative_reward n.count threshold false,
               mu_lcb := cfg.klUB n.cumulative_reward n.count threshold true }
  else
    n

/-- Embedding of `GraphDecisionNode.update` (src lines 61-65): increment the
visit count and, when a reward is supplied, accumulate it and recompute the
reward confidence bounds. -/
def GraphDecisionNode.update (cfg : PlannerConfig) (nActions : Nat)
    (n : GraphDecisionNode) (reward : Option ℚ) : GraphDecisionNode :=
  let n1 := { n with count := n.count + 1 }
  match reward with
  | none => n1
  | some r =>
    compute_reward_ucb cfg nActions { n1 with cumulative_reward := n1.cumulative_reward + r }

/-- Embedding of `GraphChanceNode.update` (src lines 163-164). -/
def GraphChanceNode.update (c : GraphChanceNode) : GraphChanceNode :=
  { c with count := c.count + 1 }

/-- Embedding of `GraphChanceNode.transition_threshold` (src lines 188-193):
the transition threshold formula evaluated on (horizon, actions, the chance
node's count, episodes). -/
def GraphChanceNode.transitionThreshold (p : Planner) (c : GraphChanceNode) : ℚ :=
  p.config.upper_bound.transition_threshold p.config.horizon p.n_actions c.count
    p.config.episodes

/-- Embedding of `GraphChanceNode.backup` (src lines 166-186): if never
visited, return the node's own value for the field; otherwise compute the
empirical distribution from child counts, the per-child one-step values with
canonical indirection, the constrained distribution, and set and return the
dot product. -/
def GraphChanceNode.backup (p : Planner) (cid : Nat) (f : BoundField) : ℚ × Planner :=
  let c := p.cnodes cid
  if c.count = 0 then (c.getF f, p)
  else
    let gamma := p.config.gamma
    let phat := c.children.map (fun e => ((p.dnodes e.2).count : ℚ) / (c.count : ℚ))
    let threshold := GraphChanceNode.transitionThreshold p c / (c.count : ℚ)
    match f with
    | .value_upper =>
      let u_next := c.children.map
        (fun e => (p.dnodes e.2).mu_ucb + gamma * get_field p (p.dnodes e.2) .value_upper)
      let pplus := p.config.maxExp u_next phat threshold
      let v := dot pplus u_next
      (v, updC p cid (fun c0 =>
        { c0 with p_hat := some phat, p_plus := some pplus, value_upper := v }))
    | .value_lower =>
      let l_next := c.children.map
        (fun e => (p.dnodes e.2).mu_lcb + gamma * get_field p (p.dnodes e.2) .value_lower)
      let pminus := p.config.maxExp (l_next.map (fun x => -x)) phat threshold
      let v := dot pminus l_next
      (v, updC p cid (fun c0 =>
        { c0 with p_hat := some phat, p_minus := some pminus, value_lower := v }))

/-- Helper for `GraphDecisionNode.backup`: evaluate each child chance node's
backup in order, threading the planner state (the dict comprehension of src
line 86 evaluates the backups left to right). -/
def mapBackup (p : Planner) (f : BoundField) : List (Nat × Nat) → List (Nat × ℚ) × Planner
  | [] => ([], p)
  | e :: rest =>
    let r := GraphChanceNode.backup p e.2 f
    let s := mapBackup r.2 f rest
    ((e.1, r.1) :: s.1, s.2)

/-- Embedding of `GraphDecisionNode.backup` (src lines 85-86): the per-action
map from each action to its chance node's backup value. -/
def GraphDecisionNode.backup (p : Planner) (did : Nat) (f : BoundField) :
    List (Nat × ℚ) × Planner :=
  mapBackup p f (p.dnodes did).children

/-- Modelled from the spec: `random_argmax` (base class, not in src) selects
the index of a maximal element, breaking ties uniformly at random among the
maximizers; the random draw is supplied as the tie-break parameter `r`. -/
def random_argmax (r : Nat) (xs : List ℚ) : Nat :=
  let m := amax xs
  let idxs := (List.range xs.length).filter (fun i => xs.getD i 0 = m)
  idxs.getD (r % idxs.length) 0

/-- One iteration of `GraphDecisionNode.expand` (src lines 102-104): create a
fresh chance node for action `a` and append it to the children of `did`.  The
action enumeration `actions_list` (src lines 106-112) is modelled from the
spec: legality comes from the external environment, embedded as the discrete
range of the action-space size. -/
def expandStep (did : Nat) (q : Planner) (a : Nat) : Planner :=
  let r := newChanceNode q did
  updD r.2 did (fun n => { n with children := n.children ++ [(a, r.1)] })

/-- Embedding of `GraphDecisionNode.expand` (src lines 102-104), iterating
`expandStep` over the action range. -/
def GraphDecisionNode.expand (p : Planner) (did : Nat) : Planner :=
  (List.range p.n_actions).foldl (expandStep did) p

/-- Common argmax-selection core of the two decision-node action rules:
compute the per-action Q-values by `GraphDecisionNode.backup` on the given
field and pick a maximizer with the randomized argmax. -/
def chooseBy (p : Planner) (did : Nat) (r : Nat) (f : BoundField) : Nat × Planner :=
  let q := GraphDecisionNode.backup p did f
  let actions := q.1.map Prod.fst
  let index := random_argmax r (q.1.map Prod.snd)
  (actions.getD index 0, q.2)

/-- Embedding of `GraphDecisionNode.sampling_rule` (src lines 41-50):
optimistic action sampling; a childless node is expanded first. -/
def sampling_rule (p : Planner) (did : Nat) (r : Nat) : Nat × Planner :=
  let p1 := if (p.dnodes did).children.isEmpty then GraphDecisionNode.expand p did else p
  chooseBy p1 did r .value_upper

/-- Embedding of `GraphDecisionNode.selection_rule` (src lines 52-59):
conservative action selection over the `value_lower` backups; the source
performs no expansion here. -/
def selection_rule (p : Planner) (did : Nat) (r : Nat) : Nat × Planner :=
  chooseBy p did r .value_lower

/-- Embedding of `GraphChanceNode.get_child` (src lines 195-207): look up the
child keyed by the observation; when absent, claim the first remaining
placeholder slot, rekey it to the observation, record the owning decision
node as parent of the canonical node of that observation, and return the
child; when no placeholder remains, fail with the capacity error. -/
def GraphChanceNode.get_child (p : Planner) (cid : Nat) (obs : String) :
    Except String (Nat × Planner) :=
  let c := p.cnodes cid
  match c.children.lookup obs with
  | some did => .ok (did, p)
  | none =>
    match (List.range p.config.max_next_states_count).findSome?
        (fun i => (c.children.lookup (placeholderKey i)).map (fun did => (i, did))) with
    | none => .error "No more placeholder nodes available, we observed more next states than the max_next_states_count config"
    | some r =>
      let newChildren := (c.children.eraseP (fun e => e.1 == placeholderKey r.1)) ++ [(obs, r.2)]
      let p1 := updC p cid (fun c0 => { c0 with children := newChildren })
      let p2 := updD p1 r.2 (fun n => { n with observation := obs })
      let g := get_node p2 obs
      let p4 := updD g.2 g.1 (fun n =>
        { n with parents := if n.parents.contains c.parent then n.parents
                            else n.parents ++ [c.parent] })
      .ok (r.2, p4)

/-- The maximum over the per-action `value_lower` backups of a node, the
first of the two recomputations of one `partial_value_iteration` iteration. -/
def pviLowerMax (p : Planner) (did : Nat) : ℚ :=
  amax ((GraphDecisionNode.backup p did .value_lower).1.map Prod.snd)

/-- The planner state after the `value_lower` recomputation of one
`partial_value_iteration` iteration on `did`. -/
def pviMid (p : Planner) (did : Nat) : Planner :=
  updD (GraphDecisionNode.backup p did .value_lower).2 did
    (fun n => { n with value_lower := pviLowerMax p did })

/-- The maximum over the per-action `value_upper` backups taken in the state
reached after the `value_lower` recomputation. -/
def pviUpperMax (p : Planner) (did : Nat) : ℚ :=
  amax ((GraphDecisionNode.backup (pviMid p did) did .value_upper).1.map Prod.snd)

/-- One iteration body of `partial_value_iteration` (src lines 91-100):
recompute both value bounds of the popped node as the max over its per-action
backups, in the source's order (`value_lower` first), and return the updated
planner together with the accumulated change `delta`. -/
def pviStep (p : Planner) (did : Nat) : Planner × ℚ :=
  let r1 := GraphDecisionNode.backup p did .value_lower
  let b1 := amax (r1.1.map Prod.snd)
  let d1 := max 0 (abs ((r1.2.dnodes did).getF .value_lower - b1))
  let p2 := updD r1.2 did (fun n => { n with value_lower := b1 })
  let r2 := GraphDecisionNode.backup p2 did .value_upper
  let b2 := amax (r2.1.map Prod.snd)
  let d2 := max d1 (abs ((r2.2.dnodes did).getF .value_upper - b2))
  let p4 := updD r2.2 did (fun n => { n with value_upper := b2 })
  (p4, d2)

/-- Embedding of `GraphDecisionNode.partial_value_iteration` (src lines
88-100) with explicit fuel: pop from the front of the worklist, recompute the
bounds via `pviStep`, and enqueue the node's parents when the change exceeds
the accuracy tolerance; `none` means the fuel ran out before the queue
emptied. -/
def pviLoop : Nat → List Nat → Planner → Option Planner
  | _, [], p => some p
  | 0, _ :: _, _ => none
  | fuel + 1, did :: queue, p =>
    let s := pviStep p did
    pviLoop fuel
      (if p.config.accuracy < s.2 then queue ++ (s.1.dnodes did).parents else queue) s.1

/-- Oracle input for one iteration of the episode loop: the random draw used
by the sampling rule and the observation and reward returned by the external
environment's `step`. -/
structure StepInput where
  r : Nat
  obs2 : String
  reward : ℚ
deriving DecidableEq

/-- Embedding of one iteration of the horizon loop of
`StochasticGraphBasedPlanner.run` (src lines 233-249): fetch the canonical
decision node of the current observation, choose an action by the sampling
rule, fetch its chance node, perform the environment transition (supplied by
the oracle input), fetch the next decision node from the chance node, and
update the three touched nodes.  Returns the new planner state and the new
current observation. -/
def episodeStep (p : Planner) (obs : String) (inp : StepInput) :
    Except String (Planner × String) :=
  let g := get_node p obs
  let s := sampling_rule g.2 g.1 inp.r
  match (s.2.dnodes g.1).children.lookup s.1 with
  | none => .error "KeyError"
  | some cid =>
    match GraphChanceNode.get_child s.2 cid inp.obs2 with
    | .error e => .error e
    | .ok r =>
      let p4 := updD r.2 g.1 (fun n => GraphDecisionNode.update r.2.config r.2.n_actions n none)
      let p5 := updC p4 cid GraphChanceNode.update
      let p6 := updD p5 r.1
        (fun n => GraphDecisionNode.update p5.config p5.n_actions n (some inp.reward))
      .ok (p6, inp.obs2)

/-- Iterate `episodeStep` over a list of oracle inputs, aborting on the first
error, as the horizon loop of `run` does. -/
def runSteps (obs : String) (p : Planner) : List StepInput → Except String Planner
  | [] => .ok p
  | inp :: rest =>
    match episodeStep p obs inp with
    | .error e => .error e
    | .ok s => runSteps s.2 s.1 rest

/-- Embedding of `StochasticGraphBasedPlanner.reset` (src lines 261-265): a
fresh unbound root node is allocated and, when no horizon is configured, the
episode/horizon split is derived by the external allocation helper
`OLOP.allocation` (not in src), passed here as the abstract function
`alloc`, applied to the maximum of the action-space size and the configured
budget. -/
def reset (alloc : Nat → ℚ → Nat × Nat) (p : Planner) : Planner :=
  let r := allocD p (freshD p.config "None")
  let p2 := { r.2 with root := r.1 }
  if p2.config.horizonSet then p2
  else
    let budget := max p2.n_actions p2.config.budget
    let eh := alloc budget p2.config.gamma
    { p2 with config :=
        { p2.config with episodes := eh.1, horizon := eh.2, horizonSet := true } }

/-- Identifiers of the children of a chance node, in children order. -/
def cids (c : GraphChanceNode) : List Nat := c.children.map Prod.snd

/-- Sum of the visit counts of the decision nodes at the given heap
addresses. -/
def sumCounts (p : Planner) (l : List Nat) : Nat :=
  (l.map (fun d => (p.dnodes d).count)).sum

/-- The chance-node visit-count invariant: for every allocated chance node the
sum of its children's visit counts equals its own visit count. -/
def chanceInv (p : Planner) : Prop :=
  ∀ cid, cid < p.nextC → sumCounts p (cids (p.cnodes cid)) = (p.cnodes cid).count

/-- Well-formedness of the planner heap: table entries and all referenced
heap addresses are allocated, the children of distinct chance nodes are
disjoint and duplicate-free, and no canonical table node is also the owned
child of a chance node. -/
def WF (p : Planner) : Prop :=
  (∀ e ∈ p.nodes, e.2 < p.nextD) ∧
  (∀ did, did < p.nextD → ∀ e ∈ (p.dnodes did).children, e.2 < p.nextC) ∧
  (∀ cid, cid < p.nextC → ∀ d ∈ cids (p.cnodes cid), d < p.nextD) ∧
  (∀ cid, cid < p.nextC → (cids (p.cnodes cid)).Nodup) ∧
  (∀ c1, c1 < p.nextC → ∀ c2, c2 < p.nextC →
    ∀ d ∈ cids (p.cnodes c1), c1 = c2 ∨ d ∉ cids (p.cnodes c2)) ∧
  (∀ e ∈ p.nodes, ∀ cid, cid < p.nextC → e.2 ∉ cids (p.cnodes cid))

/-- The empirical next-state distribution a visited chance node computes from
its children's visit counts (src line 174). -/
def pHat (p : Planner) (cid : Nat) : List ℚ :=
  (p.cnodes cid).children.map
    (fun e => ((p.dnodes e.2).count : ℚ) / (((p.cnodes cid).count : Nat) : ℚ))

/-- The per-child optimistic one-step values of a chance node: reward upper
bound plus discounted canonically-indirected `value_upper` (src line 178). -/
def uNext (p : Planner) (cid : Nat) : List ℚ :=
  (p.cnodes cid).children.map
    (fun e => (p.dnodes e.2).mu_ucb +
      p.config.gamma * get_field p (p.dnodes e.2) .value_upper)

/-- The per-child conservative one-step values of a chance node: reward lower
bound plus discounted canonically-indirected `value_lower` (src line 183). -/
def lNext (p : Planner) (cid : Nat) : List ℚ :=
  (p.cnodes cid).children.map
    (fun e => (p.dnodes e.2).mu_lcb +
      p.config.gamma * get_field p (p.dnodes e.2) .value_lower)

/-- The transition-level KL threshold a visited chance node passes to the
constrained-expectation routine (src line 175). -/
def transThr (p : Planner) (cid : Nat) : ℚ :=
  GraphChanceNode.transitionThreshold p (p.cnodes cid) / (((p.cnodes cid).count : Nat) : ℚ)

/-- Two planner states that agree on everything the well-formedness predicate
and the count invariant depend on, and additionally on all decision nodes:
the relation maintained by the backup routines, which touch only the
distributions and value bounds of chance nodes. -/
def SkelEq (p q : Planner) : Prop :=
  q.dnodes = p.dnodes ∧ q.nodes = p.nodes ∧ q.nextD = p.nextD ∧ q.nextC = p.nextC ∧
  q.config = p.config ∧ q.n_actions = p.n_actions ∧
  ∀ c, (q.cnodes c).count = (p.cnodes c).count ∧ (q.cnodes c).children = (p.cnodes c).children

/-- Agreement on everything the well-formedness predicate depends on. -/
def WFSkel (p q : Planner) : Prop :=
  q.nodes = p.nodes ∧ q.nextD = p.nextD ∧ q.nextC = p.nextC ∧
  (∀ d, (q.dnodes d).children = (p.dnodes d).children) ∧
  (∀ c, (q.cnodes c).children = (p.cnodes c).children)

/-- Agreement on all visit counts. -/
def CountsEq (p q : Planner) : Prop :=
  (∀ d, (q.dnodes d).count = (p.dnodes d).count) ∧
  (∀ c, (q.cnodes c).count = (p.cnodes c).count)

/-- A concrete configuration for the concrete test planners: unit horizon and
episode budget, zero thresholds, capacity one, and the identity-like stub
returning the reference distribution for the constrained-expectation
routine. -/
def cfg0 : PlannerConfig :=
  { gamma := 1
    accuracy := 0
    budget := 1
    horizonSet := true
    horizon := 1
    episodes := 1
    max_next_states_count := 1
    upper_bound :=
      { type := "kullback-leibler"
        threshold := fun _ _ _ _ => 0
        transition_threshold := fun _ _ _ _ => 0 }
    init_value_upper := 0
    init_value_lower := 0
    klUB := fun _ _ _ _ => 0
    maxExp := fun _ ph _ => ph }

/-- A decision node used to fill unallocated heap addresses of the concrete
test planners. -/
def dummyD : GraphDecisionNode := freshD cfg0 "unused"

/-- A chance node used to fill unallocated heap addresses of the concrete
test planners. -/
def dummyC : GraphChanceNode :=
  { parent := 0, count := 0, p_hat := none, p_plus := none, p_minus := none,
    children := [], value_upper := 0, value_lower := 0 }

/-- Concrete planner: one decision node with two unvisited chance children
whose stored upper values are 3 and 5. -/
def P3 : Planner :=
  { dnodes := fun d =>
      if d = 0 then
        { count := 1, cumulative_reward := 0, mu_ucb := 1, mu_lcb := 0,
          value_upper := 0, value_lower := 0, children := [(0, 0), (1, 1)],
          parents := [], observation := "s0" }
      else dummyD
    cnodes := fun c =>
      if c = 0 then { dummyC with value_upper := 3, value_lower := 3 }
      else { dummyC with value_upper := 5, value_lower := 5 }
    nextD := 1
    nextC := 2
    nodes := [("s0", 0)]
    root := 0
    config := cfg0
    n_actions := 2 }

/-- Concrete planner: a single childless decision node in a two-action
environment. -/
def P4 : Planner :=
  { dnodes := fun _ => freshD cfg0 "s0"
    cnodes := fun _ => dummyC
    nextD := 1
    nextC := 0
    nodes := [("s0", 0)]
    root := 0
    config := cfg0
    n_actions := 2 }

/-- Concrete planner: one chance node whose single placeholder slot has
already been claimed by observation `"sA"`. -/
def P2w : Planner :=
  { dnodes := fun d => if d = 0 then freshD cfg0 "s0" else freshD cfg0 "sA"
    cnodes := fun _ => { dummyC with children := [("sA", 1)] }
    nextD := 3
    nextC := 1
    nodes := [("s0", 0), ("sA", 2)]
    root := 0
    config := cfg0
    n_actions := 1 }

/-- Concrete planner: one chance node visited once with one realized child
that was itself visited once. -/
def Pc6 : Planner :=
  { dnodes := fun d =>
      if d = 0 then { freshD cfg0 "s0" with children := [(0, 0)], count := 1 }
      else { count := 1, cumulative_reward := 1, mu_ucb := 1, mu_lcb := 0,
             value_upper := 2, value_lower := 1, children := [], parents := [],
             observation := "sA" }
    cnodes := fun _ => { dummyC with children := [("sA", 1)], count := 1 }
    nextD := 2
    nextC := 1
    nodes := [("s0", 0)]
    root := 0
    config := cfg0
    n_actions := 1 }

/-- A configuration whose `upper_bound.type` is not the recognized
`"kullback-leibler"` scheme. -/
def cfgBad : PlannerConfig :=
  { cfg0 with upper_bound := { cfg0.upper_bound with type := "other" } }

/-- A decision node that has received one visit with reward one half but still
carries the initial default bounds `mu_ucb = 1`, `mu_lcb = 0`. -/
def nodeC1 : GraphDecisionNode :=
  { freshD cfg0 "sA" with count := 1, cumulative_reward := 1 / 2 }

/-- Concrete planner with no configured horizon, a budget of one and two
actions, for exercising `reset`. -/
def P10 : Planner :=
  { P4 with config := { cfg0 with horizonSet := false, budget := 1 } }

/-! ### Projection lemmas for the heap operations -/

@[simp] theorem updD_dnodes (p : Planner) (did : Nat) (f : GraphDecisionNode → GraphDecisionNode)
    (x : Nat) : (updD p did f).dnodes x = if x = did then f (p.dnodes x) else p.dnodes x := rfl

@[simp] theorem updD_cnodes (p : Planner) (did : Nat) (f : GraphDecisionNode → GraphDecisionNode) :
    (updD p did f).cnodes = p.cnodes := rfl

@[simp] theorem updD_nodes (p : Planner) (did : Nat) (f : GraphDecisionNode → GraphDecisionNode) :
    (updD p did f).nodes = p.nodes := rfl

@[simp] theorem updD_nextD (p : Planner) (did : Nat) (f : GraphDecisionNode → GraphDecisionNode) :
    (updD p did f).nextD = p.nextD := rfl

@[simp] theorem updD_nextC (p : Planner) (did : Nat) (f : GraphDecisionNode → GraphDecisionNode) :
    (updD p did f).nextC = p.nextC := rfl

@[simp] theorem updD_config (p : Planner) (did : Nat) (f : GraphDecisionNode → GraphDecisionNode) :
    (updD p did f).config = p.config := rfl

@[simp] theorem updD_n_actions (p : Planner) (did : Nat)
    (f : GraphDecisionNode → GraphDecisionNode) : (updD p did f).n_actions = p.n_actions := rfl

@[simp] theorem updC_cnodes (p : Planner) (cid : Nat) (f : GraphChanceNode → GraphChanceNode)
    (x : Nat) : (updC p cid f).cnodes x = if x = cid then f (p.cnodes x) else p.cnodes x := rfl

@[simp] theorem updC_dnodes (p : Planner) (cid : Nat) (f : GraphChanceNode → GraphChanceNode) :
    (updC p cid f).dnodes = p.dnodes := rfl

@[simp] theorem updC_nodes (p : Planner) (cid : Nat) (f : GraphChanceNode → GraphChanceNode) :
    (updC p cid f).nodes = p.nodes := rfl

@[simp] theorem updC_nextD (p : Planner) (cid : Nat) (f : GraphChanceNode → GraphChanceNode) :
    (updC p cid f).nextD = p.nextD := rfl

@[simp] theorem updC_nextC (p : Planner) (cid : Nat) (f : GraphChanceNode → GraphChanceNode) :
    (updC p cid f).nextC = p.nextC := rfl

@[simp] theorem updC_config (p : Planner) (cid : Nat) (f : GraphChanceNode → GraphChanceNode) :
    (updC p cid f).config = p.config := rfl

@[simp] theorem updC_n_actions (p : Planner) (cid : Nat) (f : GraphChanceNode → GraphChanceNode) :
    (updC p cid f).n_actions = p.n_actions := rfl

@[simp] theorem allocD_fst (p : Planner) (n : GraphDecisionNode) : (allocD p n).1 = p.nextD := rfl

@[simp] theorem allocD_dnodes (p : Planner) (n : GraphDecisionNode) (x : Nat) :
    (allocD p n).2.dnodes x = if x = p.nextD then n else p.dnodes x := rfl

@[simp] theorem allocD_cnodes (p : Planner) (n : GraphDecisionNode) :
    (allocD p n).2.cnodes = p.cnodes := rfl

@[simp] theorem allocD_nodes (p : Planner) (n : GraphDecisionNode) :
    (allocD p n).2.nodes = p.nodes := rfl

@[simp] theorem allocD_nextD (p : Planner) (n : GraphDecisionNode) :
    (allocD p n).2.nextD = p.nextD + 1 := rfl

@[simp] theorem allocD_nextC (p : Planner) (n : GraphDecisionNode) :
    (allocD p n).2.nextC = p.nextC := rfl

@[simp] theorem allocD_config (p : Planner) (n : GraphDecisionNode) :
    (allocD p n).2.config = p.config := rfl

@[simp] theorem allocD_n_actions (p : Planner) (n : GraphDecisionNode) :
    (allocD p n).2.n_actions = p.n_actions := rfl

/-- An association-list lookup hit yields a member of the list. -/
theorem lookup_mem {α β : Type} [BEq α] [LawfulBEq α] {l : List (α × β)} {k : α} {v : β}
    (h : l.lookup k = some v) : (k, v) ∈ l := by
  induction l with
  | nil => simp [List.lookup] at h
  | cons e t ih =>
    obtain ⟨a, b⟩ := e
    cases hk : (k == a) with
    | true =>
      simp only [List.lookup, hk] at h
      cases h
      have : k = a := eq_of_beq hk
      subst this
      exact List.mem_cons_self _ _
    | false =>
      simp only [List.lookup, hk] at h
      exact List.mem_cons_of_mem _ (ih h)

/-- Membership in `eraseP` for elements not satisfying the predicate. -/
theorem mem_eraseP_of_neg {α : Type} {pr : α → Bool} {a : α} :
    ∀ {l : List α}, a ∈ l → pr a = false → a ∈ l.eraseP pr := by
  intro l
  induction l with
  | nil => intro h _; cases h
  | cons x t ih =>
    intro hmem hpa
    rcases List.mem_cons.mp hmem with rfl | hm
    · simp [List.eraseP_cons, hpa]
    · cases hx : pr x
      · simpa [List.eraseP_cons, hx] using Or.inr (ih hm hpa)
      · simpa [List.eraseP_cons, hx] using hm

/-- The canonical node table is the only planner component `get_node`
changes besides a possible fresh decision-node allocation. -/
theorem get_node_cnodes (p : Planner) (obs : String) : (get_node p obs).2.cnodes = p.cnodes := by
  unfold get_node
  split <;> rfl

/-! ### C1: unrecognized confidence-bound scheme -/

/-- C1: the claim (and the spec) demand that an unrecognized upper-bound
scheme be reported to the caller.  The code instead merely logs and returns,
leaving `mu_ucb`/`mu_lcb` at their previous stale values: evaluating
`compute_reward_ucb` at the failing input (a node with one rewarded visit
under scheme `"other"`) returns the node completely unchanged, still carrying
the initial bounds. -/
theorem C1_unknown_scheme_silently_ignored :
    compute_reward_ucb cfgBad 2 nodeC1 = nodeC1 ∧
    nodeC1.mu_ucb = 1 ∧ nodeC1.mu_lcb = 0 ∧ nodeC1.count = 1 := by
  exact ⟨rfl, rfl, rfl, rfl⟩

/-! ### C5: zero-threshold collapse of the reward bounds -/

/-- C5: for a visited decision node under the kullback-leibler scheme, a zero
runtime threshold makes the reward-bound recomputation set both `mu_ucb` and
`mu_lcb` exactly to the empirical mean `cumulative_reward / count`. -/
theorem C5_zero_threshold_collapse (cfg : PlannerConfig) (nActions : Nat)
    (n : GraphDecisionNode) (hcount : 0 < n.count)
    (htype : cfg.upper_bound.type = "kullback-leibler")
    (hzero : cfg.upper_bound.threshold cfg.horizon nActions n.count cfg.episodes = 0) :
    (compute_reward_ucb cfg nActions n).mu_ucb = n.cumulative_reward / (n.count : ℚ) ∧
    (compute_reward_ucb cfg nActions n).mu_lcb = n.cumulative_reward / (n.count : ℚ) := by
  unfold compute_reward_ucb
  rw [if_pos htype, if_pos hzero]
  exact ⟨rfl, rfl⟩

/-- Witness for C5 at a concrete node with one visit and reward one half. -/
theorem C5_zero_threshold_collapse_witness :
    (compute_reward_ucb cfg0 2 nodeC1).mu_ucb = nodeC1.cumulative_reward / (nodeC1.count : ℚ) ∧
    (compute_reward_ucb cfg0 2 nodeC1).mu_lcb = nodeC1.cumulative_reward / (nodeC1.count : ℚ) :=
  C5_zero_threshold_collapse cfg0 2 nodeC1 (by decide) rfl rfl

/-! ### C7: backup of an unvisited chance node -/

/-- C7: the backup of a never-visited chance node returns the node's own
current value for the requested field and leaves the whole planner state
untouched: no distribution is computed and no value is updated. -/
theorem C7_chance_backup_unvisited (p : Planner) (cid : Nat) (f : BoundField)
    (h : (p.cnodes cid).count = 0) :
    GraphChanceNode.backup p cid f = ((p.cnodes cid).getF f, p) := by
  unfold GraphChanceNode.backup
  rw [if_pos h]

/-- Witness for C7 at the concrete planner `P3`, whose chance node 0 is
unvisited and stores upper value 3. -/
theorem C7_chance_backup_unvisited_witness :
    GraphChanceNode.backup P3 0 .value_upper = ((P3.cnodes 0).getF .value_upper, P3) :=
  C7_chance_backup_unvisited P3 0 .value_upper (by decide)

/-! ### C10: budget floor in reset -/

/-- C10: when no horizon is configured, `reset` derives episodes and horizon
by applying the external allocation function not to the configured budget
itself but to the maximum of that budget and the action-space size, so the
effective sample budget is never smaller than the number of actions. -/
theorem C10_reset_budget_allocation (alloc : Nat → ℚ → Nat × Nat) (p : Planner)
    (h : p.config.horizonSet = false) :
    (reset alloc p).config.episodes = (alloc (max p.n_actions p.config.budget) p.config.gamma).1 ∧
    (reset alloc p).config.horizon = (alloc (max p.n_actions p.config.budget) p.config.gamma).2 ∧
    p.n_actions ≤ max p.n_actions p.config.budget := by
  refine ⟨?_, ?_, le_max_left _ _⟩ <;> · unfold reset; simp [h]

/-- Witness for C10 at the concrete planner `P10` (two actions, budget one)
with the allocation stub returning the budget as episode count. -/
theorem C10_reset_budget_allocation_witness :
    (reset (fun b _ => (b, 1)) P10).config.episodes =
      ((fun (b : Nat) (_ : ℚ) => (b, 1)) (max P10.n_actions P10.config.budget)
        P10.config.gamma).1 ∧
    (reset (fun b _ => (b, 1)) P10).config.horizon =
      ((fun (b : Nat) (_ : ℚ) => (b, 1)) (max P10.n_actions P10.config.budget)
        P10.config.gamma).2 ∧
    P10.n_actions ≤ max P10.n_actions P10.config.budget :=
  C10_reset_budget_allocation (fun b _ => (b, 1)) P10 (by decide)

/-! ### C3: decision-node backup returns the per-action collection -/

/-- Keys of the per-action backup collection are exactly the child actions. -/
theorem mapBackup_keys (f : BoundField) :
    ∀ (l : List (Nat × Nat)) (p : Planner), (mapBackup p f l).1.map Prod.fst = l.map Prod.fst := by
  intro l
  induction l with
  | nil => intro p; rfl
  | cons e t ih => intro p; simp only [mapBackup, List.map_cons, ih]

/-- C3 counterexample: at the concrete planner `P3` the decision-node backup
returns the two-element per-action collection `[(0, 3), (1, 5)]`, which does
not consist of the single maximal value: the claim that `backup` returns the
max over its children's backups (a single scalar) is false on the code. -/
theorem C3_returns_collection_counterexample :
    (GraphDecisionNode.backup P3 0 .value_upper).1 = [(0, 3), (1, 5)] ∧
    ¬ (∀ e ∈ (GraphDecisionNode.backup P3 0 .value_upper).1,
        e.2 = amax ((GraphDecisionNode.backup P3 0 .value_upper).1.map Prod.snd)) := by
  constructor
  · rfl
  · decide

/-- C3 (amended): `DecisionNode.backup(field)` returns the per-action
collection that maps each action, in children order, to its chance node's
`backup(field)` value (the Q-values), with the backups evaluated left to
right threading the planner state; the maximum over this collection is taken
by the callers, not by `backup` itself. -/
theorem C3_backup_per_action (p : Planner) (did : Nat) (f : BoundField) :
    GraphDecisionNode.backup p did f = mapBackup p f (p.dnodes did).children ∧
    (GraphDecisionNode.backup p did f).1.map Prod.fst =
      (p.dnodes did).children.map Prod.fst ∧
    (∀ q, mapBackup q f [] = ([], q)) ∧
    (∀ q a cid rest,
      mapBackup q f ((a, cid) :: rest) =
        ((a, (GraphChanceNode.backup q cid f).1) ::
           (mapBackup (GraphChanceNode.backup q cid f).2 f rest).1,
         (mapBackup (GraphChanceNode.backup q cid f).2 f rest).2)) :=
  ⟨rfl, mapBackup_keys f _ p, fun _ => rfl, fun _ _ _ _ => rfl⟩

/-! ### C4: conservative selection rule versus optimistic sampling rule -/

/-- C4 counterexample: on the childless decision node of the concrete planner
`P4`, the sampling rule expands the node (two chance children appear), but
the selection rule performs no expansion and leaves the node childless: the
claim that the selection rule, like the sampling rule, first expands a
childless node is false on the code. -/
theorem C4_selection_no_expansion_counterexample :
    ((selection_rule P4 0 0).2.dnodes 0).children = [] ∧
    ((sampling_rule P4 0 0).2.dnodes 0).children = [(0, 0), (1, 1)] ∧
    ([] : List (Nat × Nat)) ≠ [(0, 0), (1, 1)] := by
  exact ⟨by decide, by decide, by decide⟩

/-- C4 (amended): the conservative selection rule is the argmax-selection
core applied to the `value_lower` backups exactly as the sampling rule is
that same core applied to the `value_upper` backups on a node that already
has children; unlike the sampling rule, the selection rule does not expand a
childless node first. -/
theorem C4_selection_vs_sampling (p : Planner) (did r : Nat) :
    selection_rule p did r = chooseBy p did r .value_lower ∧
    ((p.dnodes did).children ≠ [] →
      sampling_rule p did r = chooseBy p did r .value_upper) := by
  refine ⟨rfl, fun h => ?_⟩
  unfold sampling_rule
  rw [if_neg (fun hc => h (List.isEmpty_iff.mp hc))]

/-- Witness for C4 at the concrete planner `P3`, whose decision node has two
children. -/
theorem C4_selection_vs_sampling_witness :
    selection_rule P3 0 0 = chooseBy P3 0 0 .value_lower ∧
    sampling_rule P3 0 0 = chooseBy P3 0 0 .value_upper :=
  ⟨(C4_selection_vs_sampling P3 0 0).1, (C4_selection_vs_sampling P3 0 0).2 (by decide)⟩

/-! ### C2: chance-node child lookup and capacity -/

/-- C2: requesting an already-realized observation returns its existing child
with the planner untouched (no placeholder is consumed); requesting a new
observation when no placeholder slot remains fails with the capacity error;
and on every successful request, every existing non-placeholder (realized)
child entry is preserved, so no realized child is dropped or overwritten. -/
theorem C2_get_child_capacity (p : Planner) (cid : Nat) (obs : String) :
    (∀ did, (p.cnodes cid).children.lookup obs = some did →
      GraphChanceNode.get_child p cid obs = .ok (did, p)) ∧
    ((p.cnodes cid).children.lookup obs = none →
      (∀ i, i < p.config.max_next_states_count →
        (p.cnodes cid).children.lookup (placeholderKey i) = none) →
      GraphChanceNode.get_child p cid obs =
        .error "No more placeholder nodes available, we observed more next states than the max_next_states_count config") ∧
    (∀ q did, GraphChanceNode.get_child p cid obs = .ok (did, q) →
      ∀ e ∈ (p.cnodes cid).children, (∀ j, e.1 ≠ placeholderKey j) →
        e ∈ (q.cnodes cid).children) := by
  refine ⟨?_, ?_, ?_⟩
  · intro did h
    unfold GraphChanceNode.get_child
    simp only [h]
  · intro h1 h2
    have hNone : (List.range p.config.max_next_states_count).findSome?
        (fun i => ((p.cnodes cid).children.lookup (placeholderKey i)).map
          (fun did => (i, did))) = none := by
      rw [List.findSome?_eq_none_iff]
      intro i hi
      rw [h2 i (List.mem_range.mp hi)]
      rfl
    unfold GraphChanceNode.get_child
    simp only [h1, hNone]
  · intro q did hok e he hnp
    unfold GraphChanceNode.get_child at hok
    cases hl : (p.cnodes cid).children.lookup obs with
    | some v =>
      simp only [hl] at hok
      obtain ⟨rfl, rfl⟩ := by simpa using hok
      exact he
    | none =>
      simp only [hl] at hok
      cases hf : (List.range p.config.max_next_states_count).findSome?
          (fun i => ((p.cnodes cid).children.lookup (placeholderKey i)).map
            (fun did => (i, did))) with
      | none =>
        rw [hf] at hok
        exact absurd hok (by simp)
      | some r =>
        simp only [hf, Except.ok.injEq, Prod.mk.injEq] at hok
        obtain ⟨rfl, rfl⟩ := hok
        simp only [updD_cnodes, get_node_cnodes, updC_cnodes, if_pos rfl]
        refine List.mem_append_left _ ?_
        refine mem_eraseP_of_neg he ?_
        exact beq_eq_false_iff_ne.mpr (hnp r.1)

/-- Witness for C2 at the concrete planner `P2w`, whose chance node has
capacity one and one realized child `"sA"`: requesting the new observation
`"sB"` hits the capacity error. -/
theorem C2_get_child_capacity_witness :
    GraphChanceNode.get_child P2w 0 "sB" =
      .error "No more placeholder nodes available, we observed more next states than the max_next_states_count config" :=
  (C2_get_child_capacity P2w 0 "sB").2.1 (by decide) (by decide)

/-! ### C6: backup of a visited chance node -/

/-- C6: for a visited chance node, `backup("value_upper")` computes the
empirical child distribution `p_hat` from the child visit counts divided by
the node's own count, forms the per-child values `mu_ucb` plus gamma times
the child's canonically-indirected `value_upper`, obtains `p_plus` from the
constrained-expectation routine against `p_hat` under the transition KL
threshold, and sets and returns `value_upper` as the dot product; and
symmetrically `backup("value_lower")` uses `mu_lcb`, maximizes the negated
values to obtain `p_minus`, and sets and returns `value_lower` as the dot
product with the lower values. -/
theorem C6_chance_backup_formula (p : Planner) (cid : Nat)
    (h : ¬ (p.cnodes cid).count = 0) :
    GraphChanceNode.backup p cid .value_upper =
      (dot (p.config.maxExp (uNext p cid) (pHat p cid) (transThr p cid)) (uNext p cid),
       updC p cid (fun c0 =>
         { c0 with
           p_hat := some (pHat p cid)
           p_plus := some (p.config.maxExp (uNext p cid) (pHat p cid) (transThr p cid))
           value_upper :=
             dot (p.config.maxExp (uNext p cid) (pHat p cid) (transThr p cid))
               (uNext p cid) })) ∧
    GraphChanceNode.backup p cid .value_lower =
      (dot (p.config.maxExp ((lNext p cid).map (fun x => -x)) (pHat p cid) (transThr p cid))
         (lNext p cid),
       updC p cid (fun c0 =>
         { c0 with
           p_hat := some (pHat p cid)
           p_minus :=
             some (p.config.maxExp ((lNext p cid).map (fun x => -x)) (pHat p cid)
               (transThr p cid))
           value_lower :=
             dot (p.config.maxExp ((lNext p cid).map (fun x => -x)) (pHat p cid)
               (transThr p cid)) (lNext p cid) })) := by
  constructor
  · unfold GraphChanceNode.backup pHat uNext transThr
    rw [if_neg h]
  · unfold GraphChanceNode.backup pHat lNext transThr
    rw [if_neg h]

/-- Witness for C6 at the concrete planner `Pc6`, whose chance node has one
visit and one realized child. -/
theorem C6_chance_backup_formula_witness :
    GraphChanceNode.backup Pc6 0 .value_upper =
      (dot (Pc6.config.maxExp (uNext Pc6 0) (pHat Pc6 0) (transThr Pc6 0)) (uNext Pc6 0),
       updC Pc6 0 (fun c0 =>
         { c0 with
           p_hat := some (pHat Pc6 0)
           p_plus := some (Pc6.config.maxExp (uNext Pc6 0) (pHat Pc6 0) (transThr Pc6 0))
           value_upper :=
             dot (Pc6.config.maxExp (uNext Pc6 0) (pHat Pc6 0) (transThr Pc6 0))
               (uNext Pc6 0) })) :=
  (C6_chance_backup_formula Pc6 0 (by decide)).1

/-! ### Skeleton preservation of the backup routines -/

theorem skelEq_refl (p : Planner) : SkelEq p p :=
  ⟨rfl, rfl, rfl, rfl, rfl, rfl, fun _ => ⟨rfl, rfl⟩⟩

theorem skelEq_trans {p q r : Planner} (h1 : SkelEq p q) (h2 : SkelEq q r) : SkelEq p r := by
  obtain ⟨a1, b1, c1, d1, e1, f1, g1⟩ := h1
  obtain ⟨a2, b2, c2, d2, e2, f2, g2⟩ := h2
  exact ⟨a2.trans a1, b2.trans b1, c2.trans c1, d2.trans d1, e2.trans e1, f2.trans f1,
    fun c => ⟨(g2 c).1.trans (g1 c).1, (g2 c).2.trans (g1 c).2⟩⟩

/-- Updating a chance node with a count- and children-preserving function
preserves the skeleton. -/
theorem skelEq_updC (p : Planner) (cid : Nat) (g : GraphChanceNode → GraphChanceNode)
    (hcount : ∀ c, (g c).count = c.count) (hchildren : ∀ c, (g c).children = c.children) :
    SkelEq p (updC p cid g) := by
  refine ⟨rfl, rfl, rfl, rfl, rfl, rfl, fun c => ?_⟩
  simp only [updC_cnodes]
  split
  · exact ⟨hcount _, hchildren _⟩
  · exact ⟨rfl, rfl⟩

/-- A chance-node backup only rewrites the distributions and value bounds of
one chance node: the planner skeleton is preserved. -/
theorem cnBackup_skelEq (p : Planner) (cid : Nat) (f : BoundField) :
    SkelEq p (GraphChanceNode.backup p cid f).2 := by
  by_cases hc : (p.cnodes cid).count = 0
  · simp only [GraphChanceNode.backup, if_pos hc]
    exact skelEq_refl p
  · cases f
    · simp only [GraphChanceNode.backup, if_neg hc]
      exact skelEq_updC p cid _ (fun _ => rfl) (fun _ => rfl)
    · simp only [GraphChanceNode.backup, if_neg hc]
      exact skelEq_updC p cid _ (fun _ => rfl) (fun _ => rfl)

theorem mapBackup_skelEq (f : BoundField) :
    ∀ (l : List (Nat × Nat)) (p : Planner), SkelEq p (mapBackup p f l).2 := by
  intro l
  induction l with
  | nil => intro p; exact skelEq_refl p
  | cons e t ih => intro p; exact skelEq_trans (cnBackup_skelEq p e.2 f) (ih _)

theorem dnBackup_skelEq (p : Planner) (did : Nat) (f : BoundField) :
    SkelEq p (GraphDecisionNode.backup p did f).2 :=
  mapBackup_skelEq f _ p

theorem dnBackup_dnodes (p : Planner) (did : Nat) (f : BoundField) :
    (GraphDecisionNode.backup p did f).2.dnodes = p.dnodes :=
  (dnBackup_skelEq p did f).1

/-! ### C8: partial value iteration -/

/-- C8: the worklist loop of `partial_value_iteration` returns exactly when
the queue is empty; on a popped node both `value_lower` and `value_upper` are
recomputed as the max over the node's per-action backup values; and all of
the node's parents are enqueued (appended to the remaining queue) if and only
if at least one of the two bounds changed by more than the configured
accuracy tolerance. -/
theorem C8_partial_value_iteration (fuel : Nat) (p : Planner) (did : Nat) (queue : List Nat) :
    pviLoop fuel [] p = some p ∧
    pviLoop (fuel + 1) (did :: queue) p =
      pviLoop fuel
        (if p.config.accuracy < (pviStep p did).2 then
          queue ++ ((pviStep p did).1.dnodes did).parents
        else queue) (pviStep p did).1 ∧
    ((pviStep p did).1.dnodes did).value_lower = pviLowerMax p did ∧
    ((pviStep p did).1.dnodes did).value_upper = pviUpperMax p did ∧
    (p.config.accuracy < (pviStep p did).2 ↔
      p.config.accuracy < abs ((p.dnodes did).value_lower - pviLowerMax p did) ∨
      p.config.accuracy < abs ((p.dnodes did).value_upper - pviUpperMax p did)) := by
  have hlow : ((pviStep p did).1.dnodes did).value_lower = pviLowerMax p did := by
    simp [pviStep, updD_dnodes, dnBackup_dnodes, pviLowerMax]
  have hup : ((pviStep p did).1.dnodes did).value_upper = pviUpperMax p did := by
    simp [pviStep, updD_dnodes, dnBackup_dnodes, pviUpperMax, pviMid, pviLowerMax]
  have hdelta : (pviStep p did).2 =
      max (max 0 (abs ((p.dnodes did).value_lower - pviLowerMax p did)))
        (abs ((p.dnodes did).value_upper - pviUpperMax p did)) := by
    simp [pviStep, updD_dnodes, dnBackup_dnodes, pviLowerMax, pviUpperMax, pviMid,
      GraphDecisionNode.getF]
  refine ⟨by cases fuel <;> rfl, rfl, hlow, hup, ?_⟩
  rw [hdelta, lt_max_iff, lt_max_iff]
  constructor
  · rintro ((h0 | hA) | hB)
    · exact Or.inl (lt_of_lt_of_le h0 (abs_nonneg _))
    · exact Or.inl hA
    · exact Or.inr hB
  · rintro (hA | hB)
    · exact Or.inl (Or.inr hA)
    · exact Or.inr hB

/-! ### Counting lemmas for the visit-count invariant -/

theorem sumCounts_congr {p q : Planner} {l : List Nat}
    (h : ∀ d ∈ l, (q.dnodes d).count = (p.dnodes d).count) : sumCounts q l = sumCounts p l := by
  unfold sumCounts
  rw [List.map_congr_left h]

theorem sumCounts_perm {p : Planner} {l1 l2 : List Nat} (h : l1.Perm l2) :
    sumCounts p l1 = sumCounts p l2 :=
  (h.map (fun d => (p.dnodes d).count)).sum_eq

theorem sumCounts_updD_not_mem {p : Planner} {did : Nat}
    {g : GraphDecisionNode → GraphDecisionNode} {l : List Nat} (h : did ∉ l) :
    sumCounts (updD p did g) l = sumCounts p l :=
  sumCounts_congr (fun d hd => by
    have hne : d ≠ did := fun hEq => h (hEq ▸ hd)
    simp only [updD_dnodes, if_neg hne])

theorem sumCounts_updD_mem_once {p : Planner} {did : Nat}
    {g : GraphDecisionNode → GraphDecisionNode} {l : List Nat}
    (hnd : l.Nodup) (hm : did ∈ l) (hg : (g (p.dnodes did)).count = (p.dnodes did).count + 1) :
    sumCounts (updD p did g) l = sumCounts p l + 1 := by
  induction l with
  | nil => cases hm
  | cons x t ih =>
    rcases List.mem_cons.mp hm with rfl | hmt
    · have hxt : did ∉ t := (List.nodup_cons.mp hnd).1
      have h1 : ((updD p did g).dnodes did).count = (p.dnodes did).count + 1 := by
        simp only [updD_dnodes, if_pos rfl]; exact hg
      have h2 : sumCounts (updD p did g) t = sumCounts p t := sumCounts_updD_not_mem hxt
      unfold sumCounts at h2 ⊢
      simp only [List.map_cons, List.sum_cons, h1, h2]
      omega
    · have hx : x ≠ did := by
        rintro rfl
        exact (List.nodup_cons.mp hnd).1 hmt
      have h1 : ((updD p did g).dnodes x).count = (p.dnodes x).count := by
        simp only [updD_dnodes, if_neg hx]
      have h2 := ih (List.nodup_cons.mp hnd).2 hmt
      unfold sumCounts at h2 ⊢
      simp only [List.map_cons, List.sum_cons, h1, h2]
      omega

/-- Transfer of the chance-node invariant between planner states that agree
on chance-node counts and children and on decision-node counts. -/
theorem chanceInv_transfer {p q : Planner} (hC : q.nextC = p.nextC)
    (hcn : ∀ c, (q.cnodes c).children = (p.cnodes c).children)
    (hcc : ∀ c, (q.cnodes c).count = (p.cnodes c).count)
    (hdc : ∀ d, (q.dnodes d).count = (p.dnodes d).count)
    (hinv : chanceInv p) : chanceInv q := by
  intro cid hcid
  rw [hC] at hcid
  have h1 : cids (q.cnodes cid) = cids (p.cnodes cid) := by unfold cids; rw [hcn]
  rw [h1, hcc, sumCounts_congr (fun d _ => hdc d)]
  exact hinv cid hcid

/-- Transfer of well-formedness along skeleton agreement. -/
theorem wfskel_WF {p q : Planner} (h : WFSkel p q) (hwf : WF p) : WF q := by
  obtain ⟨hn, hd, hc, hdc, hcc⟩ := h
  obtain ⟨w1, w2, w3, w4, w5, w6⟩ := hwf
  have hcids : ∀ c, cids (q.cnodes c) = cids (p.cnodes c) := fun c => by
    unfold cids; rw [hcc c]
  refine ⟨?_, ?_, ?_, ?_, ?_, ?_⟩
  · intro e he; rw [hn] at he; rw [hd]; exact w1 e he
  · intro did hdid e he; rw [hd] at hdid; rw [hdc] at he; rw [hc]; exact w2 did hdid e he
  · intro cid hcid d hdm; rw [hc] at hcid; rw [hcids] at hdm; rw [hd]; exact w3 cid hcid d hdm
  · intro cid hcid; rw [hc] at hcid; rw [hcids]; exact w4 cid hcid
  · intro c1 h1 c2 h2 d hdm
    rw [hc] at h1 h2
    rw [hcids] at hdm
    rw [hcids]
    exact w5 c1 h1 c2 h2 d hdm
  · intro e he cid hcid; rw [hn] at he; rw [hc] at hcid; rw [hcids]; exact w6 e he cid hcid

theorem skelEq_good {p q : Planner} (h : SkelEq p q) (hwf : WF p) (hinv : chanceInv p) :
    WF q ∧ chanceInv q := by
  obtain ⟨h1, h2, h3, h4, h5, h6, h7⟩ := h
  refine ⟨wfskel_WF ⟨h2, h3, h4, fun d => by rw [h1], fun c => (h7 c).2⟩ hwf, ?_⟩
  exact chanceInv_transfer h4 (fun c => (h7 c).2) (fun c => (h7 c).1) (fun d => by rw [h1]) hinv

/-- Updating a decision node with a children- and count-preserving function
preserves well-formedness and the invariant. -/
theorem good_updD_light {p : Planner} {did : Nat} {g : GraphDecisionNode → GraphDecisionNode}
    (hch : ∀ n, (g n).children = n.children) (hcnt : ∀ n, (g n).count = n.count)
    (hwf : WF p) (hinv : chanceInv p) :
    WF (updD p did g) ∧ chanceInv (updD p did g) := by
  have hskel : WFSkel p (updD p did g) := by
    refine ⟨rfl, rfl, rfl, fun d => ?_, fun c => rfl⟩
    simp only [updD_dnodes]
    split
    · exact hch _
    · rfl
  refine ⟨wfskel_WF hskel hwf, ?_⟩
  refine chanceInv_transfer ?_ ?_ ?_ ?_ hinv
  · rfl
  · intro c; rfl
  · intro c; rfl
  · intro d
    simp only [updD_dnodes]
    split
    · exact hcnt _
    · rfl

/-- Fetching (or lazily creating) a canonical table node preserves
well-formedness and the invariant; the observation's entry is in the
resulting table, the chance heap is untouched and the table only grows. -/
theorem get_node_pres (p : Planner) (obs : String) (hwf : WF p) (hinv : chanceInv p) :
    WF (get_node p obs).2 ∧ chanceInv (get_node p obs).2 ∧
    (obs, (get_node p obs).1) ∈ (get_node p obs).2.nodes ∧
    (get_node p obs).2.nextC = p.nextC ∧
    (get_node p obs).2.cnodes = p.cnodes ∧
    (∀ e ∈ p.nodes, e ∈ (get_node p obs).2.nodes) := by
  obtain ⟨w1, w2, w3, w4, w5, w6⟩ := hwf
  unfold get_node
  cases hl : p.nodes.lookup obs with
  | some did =>
    simp only [hl]
    exact ⟨⟨w1, w2, w3, w4, w5, w6⟩, hinv, lookup_mem hl, by trivial, by trivial, fun e he => he⟩
  | none =>
    simp only [hl]
    refine ⟨⟨?_, ?_, ?_, ?_, ?_, ?_⟩, ?_, ?_, rfl, rfl, ?_⟩
    · intro e he
      simp only [allocD_nodes, allocD_nextD]
      rcases List.mem_append.mp he with h | h
      · exact Nat.lt_succ_of_lt (w1 e h)
      · rcases List.mem_singleton.mp h with rfl
        exact Nat.lt_succ_self _
    · intro did hdid e he
      simp only [allocD_nextD] at hdid
      simp only [allocD_dnodes] at he
      simp only [allocD_nextC]
      by_cases hEq : did = p.nextD
      · rw [if_pos hEq] at he
        simp [freshD] at he
      · rw [if_neg hEq] at he
        exact w2 did (by omega) e he
    · intro cid hcid d hdm
      simp only [allocD_nextC] at hcid
      simp only [allocD_cnodes] at hdm
      simp only [allocD_nextD]
      exact Nat.lt_succ_of_lt (w3 cid hcid d hdm)
    · intro cid hcid
      simp only [allocD_nextC] at hcid
      simp only [allocD_cnodes]
      exact w4 cid hcid
    · intro c1 h1 c2 h2 d hdm
      simp only [allocD_nextC] at h1 h2
      simp only [allocD_cnodes] at hdm ⊢
      exact w5 c1 h1 c2 h2 d hdm
    · intro e he cid hcid
      simp only [allocD_nextC] at hcid
      simp only [allocD_nodes] at he
      simp only [allocD_cnodes]
      rcases List.mem_append.mp he with h | h
      · exact w6 e h cid hcid
      · rcases List.mem_singleton.mp h with rfl
        intro hmem
        exact absurd rfl (Nat.ne_of_lt (w3 cid hcid _ hmem)).symm
    · intro cid hcid
      simp only [allocD_nextC] at hcid
      simp only [allocD_cnodes]
      refine Eq.trans (sumCounts_congr ?_) (hinv cid hcid)
      intro d hd
      have hne : d ≠ p.nextD := Nat.ne_of_lt (w3 cid hcid d hd)
      show ((allocD p (freshD p.config obs)).2.dnodes d).count = (p.dnodes d).count
      simp only [allocD_dnodes, if_neg hne]
    · exact List.mem_append_right _ (List.mem_singleton.mpr rfl)
    · intro e he
      exact List.mem_append_left _ he

/-- Characterization of placeholder pre-allocation: fresh identifiers in the
allocated range, counts zero, no children, everything else untouched. -/
theorem mkPlaceholders_spec (l : List Nat) : ∀ p : Planner,
    (mkPlaceholders p l).2.nodes = p.nodes ∧
    (mkPlaceholders p l).2.nextC = p.nextC ∧
    (mkPlaceholders p l).2.cnodes = p.cnodes ∧
    (mkPlaceholders p l).2.config = p.config ∧
    (mkPlaceholders p l).2.nextD = p.nextD + l.length ∧
    (∀ d, d < p.nextD → (mkPlaceholders p l).2.dnodes d = p.dnodes d) ∧
    (∀ d, p.nextD ≤ d → d < p.nextD + l.length →
      (mkPlaceholders p l).2.dnodes d = freshD p.config "placeholder") ∧
    (∀ e ∈ (mkPlaceholders p l).1, p.nextD ≤ e.2 ∧ e.2 < p.nextD + l.length) ∧
    ((mkPlaceholders p l).1.map Prod.snd).Nodup := by
  induction l with
  | nil =>
    intro p
    refine ⟨rfl, rfl, rfl, rfl, ?_, fun d _ => rfl, ?_, ?_, ?_⟩
    · simp [mkPlaceholders]
    · intro d hd1 hd2
      simp only [List.length_nil, Nat.add_zero] at hd2
      omega
    · intro e he
      simp [mkPlaceholders] at he
    · simp [mkPlaceholders]
  | cons i t ih =>
    intro p
    obtain ⟨h1, h2, h3, h4, h5, h6, h7, h8, h9⟩ := ih (allocD p (freshD p.config "placeholder")).2
    have hstep : mkPlaceholders p (i :: t) =
        ((placeholderKey i, p.nextD) ::
          (mkPlaceholders (allocD p (freshD p.config "placeholder")).2 t).1,
         (mkPlaceholders (allocD p (freshD p.config "placeholder")).2 t).2) := rfl
    rw [hstep]
    simp only [allocD_nodes, allocD_nextC, allocD_cnodes, allocD_config,
      allocD_nextD] at h1 h2 h3 h4 h5 h6 h7 h8
    refine ⟨h1, h2, h3, h4, ?_, ?_, ?_, ?_, ?_⟩
    · simp only [h5, List.length_cons]; omega
    · intro d hd
      rw [h6 d (by omega)]
      simp only [allocD_dnodes, if_neg (Nat.ne_of_lt hd)]
    · intro d hdl hdu
      simp only [List.length_cons] at hdu
      by_cases hEq : d = p.nextD
      · subst hEq
        rw [h6 _ (by omega)]
        simp [allocD_dnodes]
      · exact h7 d (by omega) (by omega)
    · intro e he
      simp only [List.length_cons]
      rcases List.mem_cons.mp he with rfl | hm
      · constructor
        · exact Nat.le_refl _
        · omega
      · obtain ⟨ha, hb⟩ := h8 e hm
        constructor
        · omega
        · omega
    · simp only [List.map_cons]
      rw [List.nodup_cons]
      constructor
      · intro hmem
        rcases List.mem_map.mp hmem with ⟨e, hem, heq⟩
        obtain ⟨ha, _⟩ := h8 e hem
        omega
      · exact h9

/-- Allocating a fresh chance node (with its placeholder children) preserves
well-formedness and the invariant; the table is untouched, the chance
counter advances by one and the new node sits at the old counter. -/
theorem newChanceNode_pres (p : Planner) (parent : Nat) (hwf : WF p) (hinv : chanceInv p) :
    WF (newChanceNode p parent).2 ∧ chanceInv (newChanceNode p parent).2 ∧
    (newChanceNode p parent).2.nodes = p.nodes ∧
    (newChanceNode p parent).2.nextC = p.nextC + 1 ∧
    (newChanceNode p parent).1 = p.nextC ∧
    p.nextD ≤ (newChanceNode p parent).2.nextD := by
  obtain ⟨w1, w2, w3, w4, w5, w6⟩ := hwf
  obtain ⟨m1, m2, m3, m4, m5, m6, m7, m8, m9⟩ :=
    mkPlaceholders_spec (List.range p.config.max_next_states_count) p
  have hnodes : (newChanceNode p parent).2.nodes = p.nodes := m1
  have hnextC : (newChanceNode p parent).2.nextC = p.nextC + 1 := by
    show (mkPlaceholders p (List.range p.config.max_next_states_count)).2.nextC + 1 =
      p.nextC + 1
    rw [m2]
  have hfst : (newChanceNode p parent).1 = p.nextC := m2
  have hnextD : (newChanceNode p parent).2.nextD =
      p.nextD + (List.range p.config.max_next_states_count).length := m5
  have hdn : ∀ d, (newChanceNode p parent).2.dnodes d =
      (mkPlaceholders p (List.range p.config.max_next_states_count)).2.dnodes d :=
    fun d => rfl
  have hcn : ∀ x, (newChanceNode p parent).2.cnodes x =
      if x = p.nextC then
        { parent := parent, count := 0, p_hat := none, p_plus := none, p_minus := none,
          children := (mkPlaceholders p (List.range p.config.max_next_states_count)).1,
          value_upper := p.config.init_value_upper,
          value_lower := p.config.init_value_lower }
      else p.cnodes x := by
    intro x
    show (if x = (mkPlaceholders p (List.range p.config.max_next_states_count)).2.nextC
        then _ else (mkPlaceholders p (List.range p.config.max_next_states_count)).2.cnodes x)
      = _
    rw [m2, m3]
  have hkid_lt : ∀ d ∈ cids ((newChanceNode p parent).2.cnodes p.nextC),
      p.nextD ≤ d ∧ d < (newChanceNode p parent).2.nextD := by
    intro d hd
    rw [hcn, if_pos rfl] at hd
    unfold cids at hd
    rcases List.mem_map.mp hd with ⟨e, hem, rfl⟩
    obtain ⟨ha, hb⟩ := m8 e hem
    exact ⟨ha, by rw [hnextD]; exact hb⟩
  refine ⟨⟨?_, ?_, ?_, ?_, ?_, ?_⟩, ?_, hnodes, hnextC, hfst, by rw [hnextD]; omega⟩
  · intro e he
    rw [hnodes] at he
    rw [hnextD]
    have := w1 e he
    omega
  · intro did hdid e he
    rw [hnextD] at hdid
    rw [hdn] at he
    rw [hnextC]
    by_cases hlow : did < p.nextD
    · rw [m6 did hlow] at he
      have := w2 did hlow e he
      omega
    · rw [m7 did (by omega) (by omega)] at he
      simp [freshD] at he
  · intro cid hcid d hdm
    rw [hnextC] at hcid
    by_cases hEq : cid = p.nextC
    · subst hEq
      exact (hkid_lt d hdm).2
    · rw [hcn, if_neg hEq] at hdm
      rw [hnextD]
      have := w3 cid (by omega) d hdm
      omega
  · intro cid hcid
    rw [hnextC] at hcid
    by_cases hEq : cid = p.nextC
    · subst hEq
      have : cids ((newChanceNode p parent).2.cnodes p.nextC) =
          ((mkPlaceholders p (List.range p.config.max_next_states_count)).1.map Prod.snd) := by
        rw [hcn, if_pos rfl]
        rfl
      rw [this]
      exact m9
    · rw [hcn, if_neg hEq]
      exact w4 cid (by omega)
  · intro c1 h1 c2 h2 d hdm
    rw [hnextC] at h1 h2
    by_cases hEq : c1 = c2
    · exact Or.inl hEq
    · refine Or.inr ?_
      by_cases he1 : c1 = p.nextC
      · subst he1
        have hge := (hkid_lt d hdm).1
        have hne2 : c2 ≠ p.nextC := fun h => hEq h.symm
        rw [hcn, if_neg hne2]
        intro hmem
        have := w3 c2 (by omega) d hmem
        omega
      · rw [hcn, if_neg he1] at hdm
        by_cases he2 : c2 = p.nextC
        · subst he2
          intro hmem
          have hge := (hkid_lt d hmem).1
          have := w3 c1 (by omega) d hdm
          omega
        · rw [hcn, if_neg he2]
          rcases w5 c1 (by omega) c2 (by omega) d hdm with h | h
          · exact absurd h hEq
          · exact h
  · intro e he cid hcid
    rw [hnodes] at he
    rw [hnextC] at hcid
    by_cases hEq : cid = p.nextC
    · subst hEq
      intro hmem
      have hge := (hkid_lt e.2 hmem).1
      have := w1 e he
      omega
    · rw [hcn, if_neg hEq]
      exact w6 e he cid (by omega)
  · intro cid hcid
    rw [hnextC] at hcid
    by_cases hEq : cid = p.nextC
    · subst hEq
      have hcount : ((newChanceNode p parent).2.cnodes p.nextC).count = 0 := by
        rw [hcn, if_pos rfl]
      rw [hcount]
      unfold sumCounts
      refine List.sum_eq_zero ?_
      intro x hx
      rcases List.mem_map.mp hx with ⟨d, hdm, rfl⟩
      obtain ⟨ha, hb⟩ := hkid_lt d hdm
      rw [hnextD] at hb
      rw [hdn, m7 d ha hb]
      rfl
    · have hcids : cids ((newChanceNode p parent).2.cnodes cid) = cids (p.cnodes cid) := by
        unfold cids
        rw [hcn, if_neg hEq]
      have hcount : ((newChanceNode p parent).2.cnodes cid).count = (p.cnodes cid).count := by
        rw [hcn, if_neg hEq]
      rw [hcids, hcount]
      refine Eq.trans (sumCounts_congr ?_) (hinv cid (by omega))
      intro d hd
      have hlt := w3 cid (by omega) d hd
      rw [hdn, m6 d hlt]

/-- One expansion step (allocate a chance node for one action and append it
to the node's children) preserves well-formedness and the invariant and
leaves the table unchanged. -/
theorem expandStep_pres (did : Nat) (q : Planner) (a : Nat) (hwf : WF q) (hinv : chanceInv q) :
    WF (expandStep did q a) ∧ chanceInv (expandStep did q a) ∧
    (expandStep did q a).nodes = q.nodes := by
  obtain ⟨hwf1, hinv1, hnodes1, hnextC1, hfst1, hnextD1⟩ := newChanceNode_pres q did hwf hinv
  obtain ⟨v1, v2, v3, v4, v5, v6⟩ := hwf1
  have hlt : (newChanceNode q did).1 < (newChanceNode q did).2.nextC := by
    rw [hfst1, hnextC1]
    omega
  refine ⟨⟨?_, ?_, v3, v4, v5, v6⟩, ?_, ?_⟩
  · intro e he
    simp only [expandStep, updD_nodes, updD_nextD] at he ⊢
    exact v1 e he
  · intro d hd e he
    simp only [expandStep, updD_nextD] at hd
    simp only [expandStep, updD_dnodes] at he
    simp only [expandStep, updD_nextC]
    by_cases hEq : d = did
    · rw [if_pos hEq] at he
      simp only [List.mem_append] at he
      rcases he with h | h
      · exact v2 d hd e h
      · rcases List.mem_singleton.mp h with rfl
        exact hlt
    · rw [if_neg hEq] at he
      exact v2 d hd e he
  · refine chanceInv_transfer ?_ ?_ ?_ ?_ hinv1
    · rfl
    · intro c; rfl
    · intro c; rfl
    · intro d
      simp only [expandStep, updD_dnodes]
      split
      · rfl
      · rfl
  · simp only [expandStep, updD_nodes]
    exact hnodes1

/-- Folding expansion steps preserves well-formedness, the invariant and the
table. -/
theorem foldl_expandStep_pres (did : Nat) :
    ∀ (l : List Nat) (q : Planner), WF q → chanceInv q →
      WF (l.foldl (expandStep did) q) ∧ chanceInv (l.foldl (expandStep did) q) ∧
      (l.foldl (expandStep did) q).nodes = q.nodes := by
  intro l
  induction l with
  | nil => intro q hwf hinv; exact ⟨hwf, hinv, rfl⟩
  | cons a t ih =>
    intro q hwf hinv
    obtain ⟨w, i, n⟩ := expandStep_pres did q a hwf hinv
    obtain ⟨w2, i2, n2⟩ := ih (expandStep did q a) w i
    exact ⟨w2, i2, n2.trans n⟩

/-- Node expansion preserves well-formedness, the invariant and the table. -/
theorem expand_pres (p : Planner) (did : Nat) (hwf : WF p) (hinv : chanceInv p) :
    WF (GraphDecisionNode.expand p did) ∧ chanceInv (GraphDecisionNode.expand p did) ∧
    (GraphDecisionNode.expand p did).nodes = p.nodes :=
  foldl_expandStep_pres did (List.range p.n_actions) p hwf hinv

/-- The optimistic sampling rule preserves well-formedness and the invariant
and leaves the node table unchanged. -/
theorem sampling_rule_pres (p : Planner) (did r : Nat) (hwf : WF p) (hinv : chanceInv p) :
    WF (sampling_rule p did r).2 ∧ chanceInv (sampling_rule p did r).2 ∧
    (sampling_rule p did r).2.nodes = p.nodes := by
  unfold sampling_rule chooseBy
  set p1 := if (p.dnodes did).children.isEmpty then GraphDecisionNode.expand p did else p
    with hp1
  have h1 : WF p1 ∧ chanceInv p1 ∧ p1.nodes = p.nodes := by
    rw [hp1]
    split
    · exact expand_pres p did hwf hinv
    · exact ⟨hwf, hinv, rfl⟩
  obtain ⟨hwf1, hinv1, hnodes1⟩ := h1
  obtain ⟨hg1, hg2⟩ := skelEq_good (dnBackup_skelEq p1 did .value_upper) hwf1 hinv1
  exact ⟨hg1, hg2, ((dnBackup_skelEq p1 did .value_upper).2.1).trans hnodes1⟩

/-- Rekeying an association-list entry (remove the first entry with the old
key, append its value under a new key) permutes the stored values. -/
theorem eraseP_rekey_perm :
    ∀ (l : List (String × Nat)) (k obs : String) (d : Nat), l.lookup k = some d →
      List.Perm (((l.eraseP (fun e => e.1 == k)) ++ [(obs, d)]).map Prod.snd)
        (l.map Prod.snd) := by
  intro l
  induction l with
  | nil => intro k obs d h; simp [List.lookup] at h
  | cons x t ih =>
    intro k obs d h
    obtain ⟨a, b⟩ := x
    cases hk : (k == a) with
    | true =>
      have ha : k = a := eq_of_beq hk
      subst ha
      simp only [List.lookup, hk] at h
      have hbd : b = d := by injection h
      subst hbd
      rw [List.eraseP_cons]
      have hpr : ((k, b).1 == k) = true := by simp
      rw [hpr]
      simp only [cond_true, List.map_append, List.map_cons]
      simp
    | false =>
      simp only [List.lookup, hk] at h
      have hne : k ≠ a := by
        intro hEq
        rw [hEq] at hk
        simp at hk
      have hpr : ((a, b).1 == k) = false := beq_eq_false_iff_ne.mpr (Ne.symm hne)
      rw [List.eraseP_cons, hpr]
      simp only [cond_false, List.cons_append, List.map_cons]
      exact List.Perm.cons b (ih k obs d h)

/-- Updating one chance node with a function that permutes its child values
and preserves its count preserves well-formedness and the invariant. -/
theorem wf_updC_perm {p : Planner} {cid : Nat} {g : GraphChanceNode → GraphChanceNode}
    (hperm : List.Perm (cids (g (p.cnodes cid))) (cids (p.cnodes cid)))
    (hcount : (g (p.cnodes cid)).count = (p.cnodes cid).count)
    (hwf : WF p) (hinv : chanceInv p) :
    WF (updC p cid g) ∧ chanceInv (updC p cid g) := by
  obtain ⟨w1, w2, w3, w4, w5, w6⟩ := hwf
  have hq : ∀ x, cids ((updC p cid g).cnodes x) =
      if x = cid then cids (g (p.cnodes cid)) else cids (p.cnodes x) := by
    intro x
    simp only [updC_cnodes]
    by_cases hEq : x = cid
    · subst hEq
      simp
    · simp [hEq]
  have hmem : ∀ x d, d ∈ cids ((updC p cid g).cnodes x) ↔ d ∈ cids (p.cnodes x) := by
    intro x d
    rw [hq]
    by_cases hEq : x = cid
    · subst hEq
      simp only [if_pos rfl]
      exact hperm.mem_iff
    · rw [if_neg hEq]
  refine ⟨⟨w1, ?_, ?_, ?_, ?_, ?_⟩, ?_⟩
  · intro d hd e he
    simp only [updC_dnodes] at he
    simp only [updC_nextC]
    exact w2 d hd e he
  · intro c hc d hd
    simp only [updC_nextC] at hc
    simp only [updC_nextD]
    exact w3 c hc d ((hmem c d).mp hd)
  · intro c hc
    simp only [updC_nextC] at hc
    rw [hq]
    by_cases hEq : c = cid
    · subst hEq
      rw [if_pos rfl]
      exact hperm.nodup_iff.mpr (w4 c hc)
    · rw [if_neg hEq]
      exact w4 c hc
  · intro c1 h1 c2 h2 d hd
    simp only [updC_nextC] at h1 h2
    rcases w5 c1 h1 c2 h2 d ((hmem c1 d).mp hd) with h | h
    · exact Or.inl h
    · exact Or.inr (fun hmem2 => h ((hmem c2 d).mp hmem2))
  · intro e he c hc
    simp only [updC_nextC] at hc
    intro hmem2
    exact w6 e he c hc ((hmem c e.2).mp hmem2)
  · intro c hc
    simp only [updC_nextC] at hc
    have hsum : sumCounts (updC p cid g) (cids ((updC p cid g).cnodes c)) =
        sumCounts p (cids ((updC p cid g).cnodes c)) := rfl
    rw [hsum, hq]
    by_cases hEq : c = cid
    · subst hEq
      rw [if_pos rfl]
      simp only [updC_cnodes]
      rw [if_pos trivial, hcount, sumCounts_perm hperm]
      exact hinv c hc
    · rw [if_neg hEq]
      simp only [updC_cnodes, if_neg hEq]
      exact hinv c hc

/-- A successful chance-node child fetch preserves well-formedness and the
invariant, keeps the chance counter, returns an identifier that is among the
chance node's children, and only grows the table. -/
theorem get_child_pres (p : Planner) (cid : Nat) (obs2 : String)
    (hwf : WF p) (hinv : chanceInv p) (hcid : cid < p.nextC) :
    ∀ ndid q, GraphChanceNode.get_child p cid obs2 = .ok (ndid, q) →
      WF q ∧ chanceInv q ∧ q.nextC = p.nextC ∧ ndid ∈ cids (q.cnodes cid) ∧
      (∀ e ∈ p.nodes, e ∈ q.nodes) := by
  intro ndid q hok
  unfold GraphChanceNode.get_child at hok
  cases hl : (p.cnodes cid).children.lookup obs2 with
  | some v =>
    simp only [hl] at hok
    obtain ⟨rfl, rfl⟩ := by simpa using hok
    refine ⟨hwf, hinv, rfl, ?_, fun e he => he⟩
    exact List.mem_map_of_mem Prod.snd (lookup_mem hl)
  | none =>
    simp only [hl] at hok
    cases hf : (List.range p.config.max_next_states_count).findSome?
        (fun i => ((p.cnodes cid).children.lookup (placeholderKey i)).map
          (fun did => (i, did))) with
    | none =>
      rw [hf] at hok
      exact absurd hok (by simp)
    | some r =>
      simp only [hf, Except.ok.injEq, Prod.mk.injEq] at hok
      obtain ⟨rfl, rfl⟩ := hok
      obtain ⟨i, hi_mem, hfi⟩ := List.exists_of_findSome?_eq_some hf
      cases hlk : (p.cnodes cid).children.lookup (placeholderKey i) with
      | none => rw [hlk] at hfi; cases hfi
      | some d0 =>
        rw [hlk] at hfi
        obtain rfl : (i, d0) = r := by simpa using hfi
        dsimp only
        obtain ⟨hwf1, hinv1⟩ :=
          @wf_updC_perm p cid
            (fun c0 => { c0 with children :=
              ((p.cnodes cid).children.eraseP (fun e => e.1 == placeholderKey i)) ++
                [(obs2, d0)] })
            (eraseP_rekey_perm (p.cnodes cid).children (placeholderKey i) obs2 d0 hlk)
            rfl hwf hinv
        obtain ⟨hwf2, hinv2⟩ :=
          @good_updD_light
            (updC p cid (fun c0 => { c0 with children :=
              ((p.cnodes cid).children.eraseP (fun e => e.1 == placeholderKey i)) ++
                [(obs2, d0)] }))
            d0 (fun n => { n with observation := obs2 })
            (fun n => rfl) (fun n => rfl) hwf1 hinv1
        obtain ⟨hwf3, hinv3, hmem3, hC3, hcn3, hmono3⟩ :=
          get_node_pres
            (updD (updC p cid (fun c0 => { c0 with children :=
              ((p.cnodes cid).children.eraseP (fun e => e.1 == placeholderKey i)) ++
                [(obs2, d0)] })) d0 (fun n => { n with observation := obs2 }))
            obs2 hwf2 hinv2
        obtain ⟨hwf4, hinv4⟩ :=
          @good_updD_light
            (get_node (updD (updC p cid (fun c0 => { c0 with children :=
              ((p.cnodes cid).children.eraseP (fun e => e.1 == placeholderKey i)) ++
                [(obs2, d0)] })) d0 (fun n => { n with observation := obs2 })) obs2).2
            (get_node (updD (updC p cid (fun c0 => { c0 with children :=
              ((p.cnodes cid).children.eraseP (fun e => e.1 == placeholderKey i)) ++
                [(obs2, d0)] })) d0 (fun n => { n with observation := obs2 })) obs2).1
            (fun n => { n with parents :=
              if n.parents.contains (p.cnodes cid).parent then n.parents
              else n.parents ++ [(p.cnodes cid).parent] })
            (fun n => rfl) (fun n => rfl) hwf3 hinv3
        refine ⟨hwf4, hinv4, ?_, ?_, ?_⟩
        · simp only [updD_nextC, hC3, updD_nextC, updC_nextC]
        · simp only [updD_cnodes, hcn3, updC_cnodes, if_pos rfl]
          exact List.mem_map_of_mem Prod.snd
            (List.mem_append_right _ (List.mem_singleton.mpr rfl))
        · intro e he
          simp only [updD_nodes]
          exact hmono3 e he

/-- A decision-node update never changes the children map. -/
theorem dnUpdate_children (cfg : PlannerConfig) (nActions : Nat) (n : GraphDecisionNode)
    (w : Option ℚ) : (GraphDecisionNode.update cfg nActions n w).children = n.children := by
  cases w with
  | none => rfl
  | some r =>
    simp only [GraphDecisionNode.update, compute_reward_ucb]
    split
    · split
      · rfl
      · rfl
    · rfl

/-- A decision-node update increments the visit count by exactly one. -/
theorem dnUpdate_count (cfg : PlannerConfig) (nActions : Nat) (n : GraphDecisionNode)
    (w : Option ℚ) : (GraphDecisionNode.update cfg nActions n w).count = n.count + 1 := by
  cases w with
  | none => rfl
  | some r =>
    simp only [GraphDecisionNode.update, compute_reward_ucb]
    split
    · split
      · rfl
      · rfl
    · rfl

/-- The three per-transition statistics updates (visited decision node,
chance node, outcome node) preserve well-formedness and restore the
invariant: the chance node's count and exactly one child's count each grow
by one. -/
theorem updates_pres (p : Planner) (did cid ndid : Nat) (okey : String)
    (g1 g2 : GraphDecisionNode → GraphDecisionNode)
    (hg1c : ∀ n, (g1 n).children = n.children) (hg1cnt : ∀ n, (g1 n).count = n.count + 1)
    (hg2c : ∀ n, (g2 n).children = n.children) (hg2cnt : ∀ n, (g2 n).count = n.count + 1)
    (hwf : WF p) (hinv : chanceInv p)
    (htab : (okey, did) ∈ p.nodes) (hcid : cid < p.nextC)
    (hnd : ndid ∈ cids (p.cnodes cid)) :
    WF (updD (updC (updD p did g1) cid GraphChanceNode.update) ndid g2) ∧
    chanceInv (updD (updC (updD p did g1) cid GraphChanceNode.update) ndid g2) := by
  obtain ⟨w1, w2, w3, w4, w5, w6⟩ := hwf
  constructor
  · refine wfskel_WF ?_ ⟨w1, w2, w3, w4, w5, w6⟩
    refine ⟨rfl, rfl, rfl, fun d => ?_, fun c => ?_⟩
    · simp only [updD_dnodes, updC_dnodes]
      by_cases h2 : d = ndid
      · rw [if_pos h2, hg2c]
        by_cases h1 : d = did
        · rw [if_pos h1, hg1c]
        · rw [if_neg h1]
      · rw [if_neg h2]
        by_cases h1 : d = did
        · rw [if_pos h1, hg1c]
        · rw [if_neg h1]
    · simp only [updD_cnodes, updC_cnodes]
      by_cases hcEq : c = cid
      · rw [if_pos hcEq]
        rfl
      · rw [if_neg hcEq]
  · intro c hc
    simp only [updD_nextC, updC_nextC] at hc
    have hdid_notin : ∀ c0, c0 < p.nextC → did ∉ cids (p.cnodes c0) :=
      fun c0 hc0 => w6 (okey, did) htab c0 hc0
    have hchildren_eq : ∀ c0, ((updD (updC (updD p did g1) cid GraphChanceNode.update) ndid
        g2).cnodes c0).children = (p.cnodes c0).children := by
      intro c0
      simp only [updD_cnodes, updC_cnodes]
      by_cases hcEq : c0 = cid
      · rw [if_pos hcEq]
        rfl
      · rw [if_neg hcEq]
    have hcount_eq : ∀ c0, ((updD (updC (updD p did g1) cid GraphChanceNode.update) ndid
        g2).cnodes c0).count =
        (if c0 = cid then (p.cnodes c0).count + 1 else (p.cnodes c0).count) := by
      intro c0
      simp only [updD_cnodes, updC_cnodes]
      by_cases hcEq : c0 = cid
      · rw [if_pos hcEq, if_pos hcEq]
        rfl
      · rw [if_neg hcEq, if_neg hcEq]
    have hcids_eq : ∀ c0, cids ((updD (updC (updD p did g1) cid GraphChanceNode.update) ndid
        g2).cnodes c0) = cids (p.cnodes c0) := by
      intro c0
      unfold cids
      rw [hchildren_eq]
    rw [hcids_eq, hcount_eq]
    have hstep1 : sumCounts (updD p did g1) (cids (p.cnodes c)) =
        sumCounts p (cids (p.cnodes c)) :=
      sumCounts_updD_not_mem (hdid_notin c hc)
    have hstep2 : sumCounts (updC (updD p did g1) cid GraphChanceNode.update)
        (cids (p.cnodes c)) = sumCounts (updD p did g1) (cids (p.cnodes c)) := rfl
    by_cases hcEq : c = cid
    · subst hcEq
      rw [if_pos rfl]
      have hnodup : (cids (p.cnodes c)).Nodup := w4 c hc
      have hfinal : sumCounts (updD (updC (updD p did g1) c GraphChanceNode.update) ndid g2)
          (cids (p.cnodes c)) =
          sumCounts (updC (updD p did g1) c GraphChanceNode.update) (cids (p.cnodes c)) + 1 :=
        sumCounts_updD_mem_once hnodup hnd (hg2cnt _)
      rw [hfinal, hstep2, hstep1]
      rw [hinv c hc]
    · rw [if_neg hcEq]
      have hnd_notin : ndid ∉ cids (p.cnodes c) := by
        rcases w5 cid hcid c hc ndid hnd with h | h
        · exact absurd h.symm hcEq
        · exact h
      have hfinal : sumCounts (updD (updC (updD p did g1) cid GraphChanceNode.update) ndid g2)
          (cids (p.cnodes c)) =
          sumCounts (updC (updD p did g1) cid GraphChanceNode.update) (cids (p.cnodes c)) :=
        sumCounts_updD_not_mem hnd_notin
      rw [hfinal, hstep2, hstep1]
      exact hinv c hc

/-- One successful iteration of the episode loop preserves well-formedness
and the chance-node visit-count invariant. -/
theorem episodeStep_pres (p : Planner) (obs : String) (inp : StepInput)
    (hwf : WF p) (hinv : chanceInv p) :
    ∀ q o2, episodeStep p obs inp = .ok (q, o2) → WF q ∧ chanceInv q := by
  intro q o2 hok
  unfold episodeStep at hok
  obtain ⟨hwfG, hinvG, hmemG, hCg, hcnG, hmonoG⟩ := get_node_pres p obs hwf hinv
  obtain ⟨hwfS, hinvS, hnodesS⟩ :=
    sampling_rule_pres (get_node p obs).2 (get_node p obs).1 inp.r hwfG hinvG
  have hmemS : (obs, (get_node p obs).1) ∈
      (sampling_rule (get_node p obs).2 (get_node p obs).1 inp.r).2.nodes := by
    rw [hnodesS]
    exact hmemG
  cases hlk : ((sampling_rule (get_node p obs).2 (get_node p obs).1 inp.r).2.dnodes
      (get_node p obs).1).children.lookup
      (sampling_rule (get_node p obs).2 (get_node p obs).1 inp.r).1 with
  | none =>
    simp only [hlk] at hok
    exact absurd hok (by simp)
  | some cid =>
    simp only [hlk] at hok
    have hdid_lt : (get_node p obs).1 <
        (sampling_rule (get_node p obs).2 (get_node p obs).1 inp.r).2.nextD :=
      hwfS.1 _ hmemS
    have hcid_lt : cid < (sampling_rule (get_node p obs).2 (get_node p obs).1 inp.r).2.nextC :=
      hwfS.2.1 _ hdid_lt _ (lookup_mem hlk)
    cases hgc : GraphChanceNode.get_child
        (sampling_rule (get_node p obs).2 (get_node p obs).1 inp.r).2 cid inp.obs2 with
    | error e =>
      rw [hgc] at hok
      exact absurd hok (by simp)
    | ok rr =>
      rw [hgc] at hok
      have hgc' : GraphChanceNode.get_child
          (sampling_rule (get_node p obs).2 (get_node p obs).1 inp.r).2 cid inp.obs2 =
          .ok (rr.1, rr.2) := by rw [hgc]
      obtain ⟨hwf3, hinv3, hC3, hnd3, hmono3⟩ :=
        get_child_pres _ cid inp.obs2 hwfS hinvS hcid_lt rr.1 rr.2 hgc'
      have htab3 : (obs, (get_node p obs).1) ∈ rr.2.nodes := hmono3 _ hmemS
      have hlt3 : cid < rr.2.nextC := by
        rw [hC3]
        exact hcid_lt
      obtain ⟨hwfF, hinvF⟩ :=
        updates_pres rr.2 (get_node p obs).1 cid rr.1 obs
          (fun n => GraphDecisionNode.update rr.2.config rr.2.n_actions n none)
          (fun n => GraphDecisionNode.update
            (updC (updD rr.2 (get_node p obs).1
              (fun n => GraphDecisionNode.update rr.2.config rr.2.n_actions n none)) cid
              GraphChanceNode.update).config
            (updC (updD rr.2 (get_node p obs).1
              (fun n => GraphDecisionNode.update rr.2.config rr.2.n_actions n none)) cid
              GraphChanceNode.update).n_actions n (some inp.reward))
          (fun n => dnUpdate_children _ _ n none)
          (fun n => dnUpdate_count _ _ n none)
          (fun n => dnUpdate_children _ _ n (some inp.reward))
          (fun n => dnUpdate_count _ _ n (some inp.reward))
          hwf3 hinv3 htab3 hlt3 hnd3
      obtain ⟨rfl, rfl⟩ := by simpa using hok
      exact ⟨hwfF, hinvF⟩

/-- Iterating successful episode steps preserves well-formedness and the
invariant. -/
theorem runSteps_pres :
    ∀ (inputs : List StepInput) (obs : String) (p : Planner), WF p → chanceInv p →
      ∀ q, runSteps obs p inputs = .ok q → WF q ∧ chanceInv q := by
  intro inputs
  induction inputs with
  | nil =>
    intro obs p hwf hinv q h
    cases h
    exact ⟨hwf, hinv⟩
  | cons inp t ih =>
    intro obs p hwf hinv q h
    unfold runSteps at h
    cases hes : episodeStep p obs inp with
    | error e =>
      rw [hes] at h
      cases h
    | ok s =>
      rw [hes] at h
      obtain ⟨hwf1, hinv1⟩ := episodeStep_pres p obs inp hwf hinv s.1 s.2
        (by rw [hes])
      exact ih s.2 s.1 hwf1 hinv1 q h

/-! ### C9: chance-node visit-count invariant -/

/-- C9: starting from any well-formed planner state satisfying the
invariant, after any number of successful episode-loop steps every allocated
chance node's visit count equals the sum of its children's visit counts —
each chance-node visit increments exactly one child's count, and unrealized
placeholders keep count zero, so in particular the equation holds once any
child has been visited. -/
theorem C9_child_count_invariant (inputs : List StepInput) (obs : String) (p q : Planner)
    (hwf : WF p) (hinv : chanceInv p) (hrun : runSteps obs p inputs = .ok q) :
    ∀ cid, cid < q.nextC → sumCounts q (cids (q.cnodes cid)) = (q.cnodes cid).count :=
  (runSteps_pres inputs obs p hwf hinv q hrun).2

/-- Witness for C9 at the concrete planner `P3`. -/
theorem C9_child_count_invariant_witness :
    sumCounts P3 (cids (P3.cnodes 0)) = (P3.cnodes 0).count :=
  C9_child_count_invariant [] "s0" P3 P3 (by unfold WF; decide) (by unfold chanceInv; decide)
    rfl 0 (by decide)
